import Mathlib

/-!
Verification of the caching and batch-orchestration core of the
KNMI EPW generator repository.

The development shallowly embeds:
* `IntelligentCache` from `src/knmi_epw/utils.py` (TTL expiry, LRU size
  eviction, checksum integrity),
* `BatchProcessor` from `src/knmi_epw/batch_processor.py` (per-item failure
  isolation and run statistics),
* the chunked/streaming data path of `src/knmi_epw/processor.py`.

Modelling conventions:
* Python dicts become insertion-ordered association lists.
* `time.time()` values become integers; the several `time.time()` calls
  inside a single cache operation are idealised to one instant `now`.
* `hashlib.md5` digests (file checksums and key-to-filename hashing) are
  idealised as collision-free, i.e. modelled by the identity function.
* File contents are symbolic: either the serialization of a value under a
  given format, or opaque raw bytes (used to model corruption).
* The byte length produced by pickle/CSV/JSON serialization is external
  library behaviour; it is modelled by an explicit executable size function.
-/

namespace KnmiEpw

/-- Serialization formats of `IntelligentCache` (`_get_cache_path` maps them
to the `.pkl`/`.csv`/`.json` extensions). -/
inductive DataType
  | pickle
  | csv
  | json
deriving DecidableEq, Repr

/-- Python values storable in the cache.  A pandas DataFrame is a list of
(timestamp, payload) rows; dict/list values (JSON-serializable) and other
picklable objects are opaque, with an explicit serialized size for the
latter so that entries of arbitrary on-disk size exist in the model. -/
inductive Value
  | df (rows : List (Int × Int))
  | jsn (n : Nat)
  | obj (n : Nat)
deriving DecidableEq, Repr

/-- Serialized byte length of a value (models `cache_path.stat().st_size`
after the value is written).  `obj n` serializes to `n + 1` bytes, so every
positive size is realisable. -/
def Value.serSize : Value → Nat
  | .df rows => rows.length + 1
  | .jsn _ => 1
  | .obj n => n + 1

/-- The `data_type = "auto"` detection in `IntelligentCache.set`:
DataFrame -> csv, dict/list -> json, otherwise pickle. -/
def Value.autoType : Value → DataType
  | .df _ => .csv
  | .jsn _ => .json
  | .obj _ => .pickle

/-- Content of a cache file on disk: either the serialization of a value
under a format, or arbitrary other bytes (corruption). -/
inductive FileBytes
  | ser (dt : DataType) (v : Value)
  | raw (n : Nat)
deriving DecidableEq, Repr

/-- On-disk size of file content. -/
def FileBytes.size : FileBytes → Nat
  | .ser _ v => v.serSize
  | .raw n => n

/-- `calculate_file_hash` (utils.py): md5 over the file bytes, idealised as
a collision-free digest, i.e. the identity on symbolic contents. -/
def fileHash (b : FileBytes) : FileBytes := b

/-- Decoding in `IntelligentCache.get`: `pickle.load` / `pd.read_csv` /
`json.load` succeed exactly on bytes produced by the matching serializer and
round-trip the value; on anything else they raise, which `get` catches and
turns into a miss (`none`). -/
def deserialize (dt : DataType) (b : FileBytes) : Option Value :=
  match dt, b with
  | .pickle, .ser .pickle v => some v
  | .csv, .ser .csv v => some v
  | .json, .ser .json v => some v
  | _, _ => none

/-- One entry of `IntelligentCache.metadata` (the JSON index): the dict
written by `set`. -/
structure MetaEntry where
  created_time : Int
  last_access : Int
  ttl : Int
  data_type : DataType
  checksum : FileBytes
  size : Nat
deriving DecidableEq, Repr

/-! ### Association lists (Python dicts, insertion-ordered) -/

/-- Dict lookup: first entry with the given key. -/
def alookup {α β : Type} [DecidableEq α] : List (α × β) → α → Option β
  | [], _ => none
  | (a, b) :: l, k => if a = k then some b else alookup l k

/-- Dict assignment `d[k] = v`: update in place if the key is present,
otherwise append (Python 3.7+ insertion order). -/
def aupdate {α β : Type} [DecidableEq α] : List (α × β) → α → β → List (α × β)
  | [], k, v => [(k, v)]
  | (a, b) :: l, k, v => if a = k then (k, v) :: l else (a, b) :: aupdate l k v

/-- Dict deletion `del d[k]` (and file unlink): removes the first entry with
the given key, no-op when absent. -/
def aerase {α β : Type} [DecidableEq α] : List (α × β) → α → List (α × β)
  | [], _ => []
  | (a, b) :: l, k => if a = k then l else (a, b) :: aerase l k

/-! ### Cache state -/

/-- State of an `IntelligentCache` instance: the metadata index, the cache
directory contents (path ↦ bytes), and the configuration. -/
structure CacheState where
  metadata : List (String × MetaEntry)
  disk : List ((String × DataType) × FileBytes)
  maxSizeBytes : Nat
  defaultTtl : Int
deriving DecidableEq, Repr

/-- `_get_cache_path`: md5 of the key (idealised collision-free, so the key
itself) plus the extension for the data type. -/
def cachePath (key : String) (dt : DataType) : String × DataType := (key, dt)

/-- `_is_expired`: a missing key counts as expired; otherwise the entry is
expired when `now - created_time > ttl` (strict). -/
def isExpired (s : CacheState) (now : Int) (key : String) : Bool :=
  match alookup s.metadata key with
  | none => true
  | some m => decide (now - m.created_time > m.ttl)

/-- Expiry of a single metadata entry at time `now` (the test
`_is_expired` applies once the entry is found). -/
def expiredMeta (now : Int) (m : MetaEntry) : Bool :=
  decide (now - m.created_time > m.ttl)

/-- `_verify_integrity`: false when the key is unindexed or the file is
missing; otherwise recompute the file hash and compare to the stored
checksum. -/
def verifyIntegrity (s : CacheState) (key : String) (path : String × DataType) : Bool :=
  match alookup s.metadata key, alookup s.disk path with
  | some m, some content => decide (fileHash content = m.checksum)
  | _, _ => false

/-- The `last_access` refresh a successful `get` performs on the index. -/
def setLastAccess : List (String × MetaEntry) → String → Int → List (String × MetaEntry)
  | [], _, _ => []
  | (a, m) :: l, k, t =>
      if a = k then (a, { m with last_access := t }) :: l
      else (a, m) :: setLastAccess l k t

/-- `IntelligentCache.get`: miss (`none`) on expiry, missing file, failed
integrity check or failed decode; on a hit the entry's `last_access` is
refreshed.  The `last_access` write also persists when the decode then
fails, exactly as in the Python code. -/
def cacheGet (s : CacheState) (now : Int) (key : String) : Option Value × CacheState :=
  if isExpired s now key then (none, s)
  else
    let dt := ((alookup s.metadata key).map MetaEntry.data_type).getD .pickle
    let path := cachePath key dt
    match alookup s.disk path with
    | none => (none, s)
    | some content =>
        if verifyIntegrity s key path then
          (deserialize dt content, { s with metadata := setLastAccess s.metadata key now })
        else (none, s)

/-- On-disk size contributed by one indexed entry: the size of the file at
its path when that file exists, `0` otherwise (`_enforce_size_limit` sums
`stat().st_size` over entries whose path exists). -/
def entryDiskSize (s : CacheState) (key : String) (m : MetaEntry) : Nat :=
  match alookup s.disk (cachePath key m.data_type) with
  | some content => content.size
  | none => 0

/-- Total on-disk size of all indexed entries. -/
def totalIndexedSize (s : CacheState) : Nat :=
  (s.metadata.map (fun p => entryDiskSize s p.1 p.2)).sum

/-- One iteration of the `_cleanup_expired` loop for one key of the
snapshot of `metadata.keys()`: if the entry is expired, unlink its file and
delete its index record. -/
def cleanupStep (now : Int) (st : CacheState) (key : String) : CacheState :=
  if isExpired st now key then
    match alookup st.metadata key with
    | some m =>
        { st with disk := aerase st.disk (cachePath key m.data_type),
                  metadata := aerase st.metadata key }
    | none => st
  else st

/-- `_cleanup_expired`: iterate over a snapshot of the index keys, removing
every expired entry (payload file and index record). -/
def cleanupExpired (s : CacheState) (now : Int) : CacheState :=
  (s.metadata.map Prod.fst).foldl (cleanupStep now) s

/-- Ordering used by the LRU sweep: `sorted(metadata.items(), key=lambda x:
x[1].get('last_access', 0))`. -/
def laLE (a b : String × MetaEntry) : Prop := a.2.last_access ≤ b.2.last_access

instance : DecidableRel laLE := fun a b =>
  inferInstanceAs (Decidable (a.2.last_access ≤ b.2.last_access))

instance : IsTotal (String × MetaEntry) laLE := ⟨fun _ _ => le_total _ _⟩

instance : IsTrans (String × MetaEntry) laLE := ⟨fun _ _ _ h h2 => le_trans h h2⟩

/-- The deletion loop of `_enforce_size_limit` over the entries sorted by
`last_access`: stop once the running total is within budget; otherwise
unlink the entry's file (when present, subtracting its size from the
running total) and delete its index record. -/
def sweepLoop (maxSize : Nat) : List (String × MetaEntry) → Nat → CacheState → CacheState
  | [], _, st => st
  | (k, m) :: rest, total, st =>
      if total ≤ maxSize then st
      else
        match alookup st.disk (cachePath k m.data_type) with
        | some content =>
            sweepLoop maxSize rest (total - content.size)
              { st with disk := aerase st.disk (cachePath k m.data_type),
                        metadata := aerase st.metadata k }
        | none =>
            sweepLoop maxSize rest total { st with metadata := aerase st.metadata k }

/-- `_enforce_size_limit`: compute the total on-disk size of indexed
entries; if it exceeds the budget, delete entries in ascending
`last_access` order until it does not. -/
def enforceSizeLimit (s : CacheState) : CacheState :=
  let total := totalIndexedSize s
  if total ≤ s.maxSizeBytes then s
  else sweepLoop s.maxSizeBytes (List.insertionSort laLE s.metadata) total s

/-- The metadata dict `set` writes for a new entry. -/
def newMeta (now : Int) (ttl : Int) (v : Value) : MetaEntry :=
  { created_time := now
    last_access := now
    ttl := ttl
    data_type := v.autoType
    checksum := fileHash (FileBytes.ser v.autoType v)
    size := (FileBytes.ser v.autoType v).size }

/-- The serialize-and-index phase of `IntelligentCache.set`, before the
eviction pass: write the file, record the metadata entry. -/
def writePhase (s : CacheState) (now : Int) (key : String) (v : Value)
    (ttlOpt : Option Int) : CacheState :=
  let ttl := ttlOpt.getD s.defaultTtl
  let dt := v.autoType
  { s with disk := aupdate s.disk (cachePath key dt) (FileBytes.ser dt v),
           metadata := aupdate s.metadata key (newMeta now ttl v) }

/-- `IntelligentCache.set` with `data_type="auto"`: serialize and index the
value, then run the eviction pass (`_cleanup_expired` followed by
`_enforce_size_limit`). -/
def cacheSet (s : CacheState) (now : Int) (key : String) (v : Value)
    (ttlOpt : Option Int) : CacheState :=
  enforceSizeLimit (cleanupExpired (writePhase s now key v ttlOpt) now)

/-- `IntelligentCache.has`: not expired, and a file exists at the path the
key maps to under the *default* data type `pickle`
(`self._get_cache_path(key)` with no `data_type` argument). -/
def cacheHas (s : CacheState) (now : Int) (key : String) : Bool :=
  !(isExpired s now key) && (alookup s.disk (cachePath key .pickle)).isSome

/-! ### Batch processor (`batch_processor.py`)

`process_single_station` is modelled with the batch cache disabled
(`config.processing.cache_enabled = False`, so `self.batch_cache is None`):
the claims settled here concern failure isolation and statistics, not the
cache interaction.  The behaviour of the external collaborators (station
lookup, downloader, processor, validator, EPW generator) for one work item
is an input of the model, as is the wall-clock time the item consumes. -/

/-- What the external pipeline does for one `(station_id, year)` item:
the station lookup returns nothing; the downloader returns `None`; a stage
raises an exception with message `msg`; validation of the processed data
returns false; or everything succeeds producing `records` rows and an
output artifact at `path`. -/
inductive PipelineOutcome
  | stationNotFound
  | downloadFailed
  | validationFailed
  | raised (msg : String)
  | success (records : Nat) (path : String)
deriving DecidableEq, Repr

/-- One unit of batch work: the key, the pipeline behaviour for it, and the
wall-clock time its handling consumes. -/
structure WorkItem where
  stationId : String
  year : Int
  outcome : PipelineOutcome
  dur : Nat
deriving DecidableEq, Repr

/-- The `BatchResult` dataclass. -/
structure BatchResult where
  station_id : String
  year : Int
  success : Bool
  output_path : Option String := none
  error_message : Option String := none
  processing_time : Nat := 0
  data_records : Nat := 0
deriving DecidableEq, Repr

/-- The `BatchStats` dataclass.  `average_time_per_station` is a Python
float division, modelled as an exact rational. -/
structure BatchStats where
  total_stations : Nat
  successful : Nat
  failed : Nat
  total_time : Nat
  average_time_per_station : ℚ
  total_data_records : Nat
  cache_hits : Nat
  cache_misses : Nat
deriving DecidableEq, Repr

/-- Mutable scheduler state threaded through a run: the wall clock and the
shared hit/miss counters. -/
structure ProcState where
  clock : Nat
  cache_hits : Nat
  cache_misses : Nat
deriving DecidableEq, Repr

/-- The `BatchResult` produced by `process_single_station` for one item
(cache disabled).  Note which paths record `processing_time`: the
early-return failures (`station not found`, download failure, validation
failure) leave it at its dataclass default `0.0`; the exception handler and
the success path set it to the elapsed time. -/
def singleResult (it : WorkItem) : BatchResult :=
  match it.outcome with
  | .stationNotFound =>
      { station_id := it.stationId, year := it.year, success := false,
        error_message := some ("Station " ++ it.stationId ++ " not found") }
  | .downloadFailed =>
      { station_id := it.stationId, year := it.year, success := false,
        error_message := some ("Failed to download data for station " ++ it.stationId
          ++ " year " ++ toString it.year) }
  | .validationFailed =>
      { station_id := it.stationId, year := it.year, success := false,
        error_message := some ("Data validation failed for station " ++ it.stationId
          ++ " year " ++ toString it.year) }
  | .raised msg =>
      { station_id := it.stationId, year := it.year, success := false,
        error_message := some msg, processing_time := it.dur }
  | .success records path =>
      { station_id := it.stationId, year := it.year, success := true,
        output_path := some path, data_records := records,
        processing_time := it.dur }

/-- `process_single_station`: consume the item's wall-clock time, bump the
miss counter (unconditional once the station lookup succeeded and the
cache-hit branch was not taken), and return the per-item result.  Every
pipeline failure is converted into a `success = false` result; nothing
escapes. -/
def processSingleStation (it : WorkItem) (ps : ProcState) : BatchResult × ProcState :=
  let ps' : ProcState :=
    { ps with
      clock := ps.clock + it.dur
      cache_misses :=
        match it.outcome with
        | .stationNotFound => ps.cache_misses
        | _ => ps.cache_misses + 1 }
  (singleResult it, ps')

/-- `process_multiple_stations_sequential`: items strictly in order, one
result appended per item.  Parallel mode collects the same per-item results
in completion order; it is modelled by applying this function to the
completion-order permutation of the item list. -/
def processSequential : List WorkItem → ProcState → List BatchResult × ProcState
  | [], ps => ([], ps)
  | it :: rest, ps =>
      let (r, ps1) := processSingleStation it ps
      let (rs, ps2) := processSequential rest ps1
      (r :: rs, ps2)

/-- `generate_batch_stats`: partition counts, total records over successful
results, and `total_time / len(results)` guarded to `0` for an empty run. -/
def generateBatchStats (results : List BatchResult) (totalTime : Nat)
    (hits misses : Nat) : BatchStats :=
  let successful := (results.filter (fun r => r.success)).length
  let failed := results.length - successful
  let totalRecords := ((results.filter (fun r => r.success)).map
    (fun r => r.data_records)).sum
  let avgTime : ℚ := if results.isEmpty then 0
    else (totalTime : ℚ) / (results.length : ℚ)
  { total_stations := results.length
    successful := successful
    failed := failed
    total_time := totalTime
    average_time_per_station := avgTime
    total_data_records := totalRecords
    cache_hits := hits
    cache_misses := misses }

/-- `process_batch` (sequential mode; parallel mode is the same function on
the completion-order permutation of `items`): record the start time, reset
the hit/miss counters, process all items, and aggregate the statistics over
the wall-clock duration of the whole call. -/
def processBatch (items : List WorkItem) (startClock : Nat) :
    List BatchResult × BatchStats :=
  let ps0 : ProcState := { clock := startClock, cache_hits := 0, cache_misses := 0 }
  let (results, ps1) := processSequential items ps0
  let totalTime := ps1.clock - startClock
  (results, generateBatchStats results totalTime ps1.cache_hits ps1.cache_misses)

/-! ### Streaming transform (`processor.py`)

`read_knmi_data_chunked` parses the raw file chunk by chunk; the per-chunk
parsing (column cleanup, datetime processing, time filtering) may raise, in
which case that chunk is skipped with a warning, and chunks that come out
empty are skipped silently.  `process_weather_data_streaming` then runs the
transform stages (solar position, unit conversion, radiation decomposition,
quality fixes) on each yielded chunk; those stages are external numeric
collaborators here, so their behaviour per chunk is an input of the model:
either they raise, or they produce the chunk's weather rows. -/

/-- Outcome of the per-chunk parsing inside `read_knmi_data_chunked`:
either the chunk's processing raises (`fail`), or it yields parsed rows,
each a (timestamp, record) pair, after datetime indexing and filtering. -/
inductive ChunkRead
  | fail (msg : String)
  | rows (rs : List (Int × Nat))
deriving DecidableEq, Repr

/-- Behaviour of the transform stages of `process_weather_data_streaming`
on one yielded chunk: raise, or produce the transformed weather rows. -/
inductive ChunkBody
  | raises (msg : String)
  | produces (rs : List (Int × Nat))
deriving DecidableEq, Repr

/-- One raw chunk of the source file, with the behaviour of both the
parsing stage and the transform stage on it. -/
structure ChunkSpec where
  read : ChunkRead
  body : ChunkBody
deriving DecidableEq, Repr

/-- Whether the parsing stage yields this chunk: it neither raised nor came
out empty. -/
def chunkYielded (c : ChunkSpec) : Bool :=
  match c.read with
  | .fail _ => false
  | .rows rs => !rs.isEmpty

/-- `read_knmi_data_chunked` as the sequence of chunks it yields: chunks
whose per-chunk processing raises are skipped with a logged warning, empty
chunks are skipped silently. -/
def readKnmiDataChunked (chunks : List ChunkSpec) : List ChunkSpec :=
  chunks.filter chunkYielded

/-- The accumulation loop of `process_weather_data_streaming` over the
yielded chunks: an exception from the transform stages of any chunk
propagates (aborting the loop); otherwise the chunks' transformed rows are
collected in order. -/
def streamAccum : List ChunkSpec → Except String (List (List (Int × Nat)))
  | [] => .ok []
  | c :: rest =>
      match c.body with
      | .raises msg => .error msg
      | .produces rs =>
          match streamAccum rest with
          | .error msg => .error msg
          | .ok tail => .ok (rs :: tail)

/-- Timestamp ordering used by the final `sort_index()`. -/
def tsLE (a b : Int × Nat) : Prop := a.1 ≤ b.1

instance : DecidableRel tsLE := fun a b => inferInstanceAs (Decidable (a.1 ≤ b.1))

instance : IsTotal (Int × Nat) tsLE := ⟨fun _ _ => le_total _ _⟩

instance : IsTrans (Int × Nat) tsLE := ⟨fun _ _ _ h h2 => le_trans h h2⟩

/-- `process_weather_data_streaming`: accumulate the transformed rows of
the yielded chunks; any exception is wrapped into a
`DataValidationError("Streaming weather data processing failed: ...")`; if
no chunk was successfully processed, that same wrapping applies to the
`"No data chunks were successfully processed"` error; otherwise the chunks
are concatenated and re-sorted by their timestamp index. -/
def processWeatherDataStreaming (chunks : List ChunkSpec) :
    Except String (List (Int × Nat)) :=
  match streamAccum (readKnmiDataChunked chunks) with
  | .error msg => .error ("Streaming weather data processing failed: " ++ msg)
  | .ok chunkRows =>
      if chunkRows.isEmpty then
        .error ("Streaming weather data processing failed: "
          ++ "No data chunks were successfully processed")
      else .ok (List.insertionSort tsLE chunkRows.flatten)

/-! ### Characterization helpers

Definitions below are proof-layer vocabulary used to *state* properties of
the embedded operations; they are not translations of further source
code. -/

/-- Removing one cache entry: unlink its payload file and delete its index
record (the effect of one deletion step of either eviction sweep). -/
def removeEntry (st : CacheState) (p : String × MetaEntry) : CacheState :=
  { st with disk := aerase st.disk (cachePath p.1 p.2.data_type),
            metadata := aerase st.metadata p.1 }

/-- Removing a list of cache entries in order. -/
def removeEntries (st : CacheState) (l : List (String × MetaEntry)) : CacheState :=
  l.foldl removeEntry st

/-- The transformed rows a chunk contributes when its transform stage does
not raise. -/
def producedRows (c : ChunkSpec) : List (Int × Nat) :=
  match c.body with
  | .produces rs => rs
  | .raises _ => []

/-- An `IntelligentCache` directory right after creation: empty index,
empty directory. -/
def emptyCache (maxSize : Nat) (dttl : Int) : CacheState :=
  { metadata := [], disk := [], maxSizeBytes := maxSize, defaultTtl := dttl }

/-- Concrete state for the `has` counterexample: a DataFrame value cached
under key `"k"` at time `0` with `ttl = 100` in a fresh cache. -/
def hasCexState : CacheState :=
  cacheSet (emptyCache 1000000 86400) 0 "k" (.df [(0, 1)]) (some 100)

/-- Concrete state for the replacement counterexample: a small pickled
object cached under key `"k"` at time `0` in a cache with a 10-byte
budget. -/
def smallEntryState : CacheState :=
  cacheSet (emptyCache 10 86400) 0 "k" (.obj 1) (some 100)

/-- Concrete work item whose pipeline raises an exception carrying an empty
message (`str(e) == ""`, e.g. `raise ValueError()`). -/
def emptyMsgItem : WorkItem :=
  { stationId := "240", year := 2020, outcome := .raised "", dur := 3 }

/-- Concrete chunk sequence for the streaming counterexample: the first
chunk parses and transforms fine, the second chunk's transform stage
raises. -/
def streamCexChunks : List ChunkSpec :=
  [ { read := .rows [(0, 1)], body := .produces [(0, 10)] },
    { read := .rows [(1, 2)], body := .raises "boom" } ]

/-- Whether the transform stages succeed on a chunk (decidable form used in
statements). -/
def bodyProduces (c : ChunkSpec) : Bool :=
  match c.body with
  | .produces _ => true
  | .raises _ => false

/-- Concrete chunk sequence where one chunk's parsing fails but every
yielded chunk transforms fine (used to witness the partial-success
behaviour). -/
def demoChunks : List ChunkSpec :=
  [ { read := .rows [(1, 1)], body := .produces [(1, 5)] },
    { read := .fail "bad line", body := .raises "never reached" },
    { read := .rows [(0, 2)], body := .produces [(0, 6)] } ]

/-- Concrete work item whose pipeline succeeds. -/
def demoOkItem : WorkItem :=
  { stationId := "260", year := 2019, outcome := .success 8760 "out.epw", dur := 5 }

/-- Concrete work item whose download fails. -/
def demoFailItem : WorkItem :=
  { stationId := "310", year := 2019, outcome := .downloadFailed, dur := 2 }

/-- A cache state holding one pickled entry whose on-disk bytes were then
altered without updating the checksum metadata (data corruption). -/
def corruptState : CacheState :=
  let s := cacheSet (emptyCache 1000 86400) 0 "k" (.obj 3) (some 100)
  { s with disk := aupdate s.disk (cachePath "k" .pickle) (.raw 9) }

/-! ## Lemmas on association lists -/

theorem alookup_append {α β : Type} [DecidableEq α] (l₁ l₂ : List (α × β)) (k : α) :
    alookup (l₁ ++ l₂) k = ((alookup l₁ k).orElse (fun _ => alookup l₂ k)) := by
  induction l₁ with
  | nil => simp [alookup]
  | cons p l ih =>
      obtain ⟨a, b⟩ := p
      by_cases h : a = k <;> simp [alookup, h, ih]

theorem alookup_none_iff {α β : Type} [DecidableEq α] (l : List (α × β)) (k : α) :
    alookup l k = none ↔ k ∉ l.map Prod.fst := by
  induction l with
  | nil => simp [alookup]
  | cons p l ih =>
      obtain ⟨a, b⟩ := p
      by_cases h : a = k
      · subst h
        simp [alookup]
      · have h2 : ¬ k = a := fun h2 => h h2.symm
        simp [alookup, h, h2, ih]

theorem alookup_isSome_iff {α β : Type} [DecidableEq α] (l : List (α × β)) (k : α) :
    (alookup l k).isSome ↔ k ∈ l.map Prod.fst := by
  rcases h : alookup l k with _ | v
  · simpa [h] using (alookup_none_iff l k).mp h
  · simp only [Option.isSome_some, true_iff]
    by_contra hmem
    rw [(alookup_none_iff l k).mpr hmem] at h
    cases h

theorem alookup_mem {α β : Type} [DecidableEq α] {l : List (α × β)} {k : α} {v : β}
    (h : alookup l k = some v) : (k, v) ∈ l := by
  induction l with
  | nil => cases h
  | cons p l ih =>
      obtain ⟨a, b⟩ := p
      by_cases ha : a = k
      · subst ha
        simp [alookup] at h
        simp [h]
      · simp [alookup, ha] at h
        exact List.mem_cons_of_mem _ (ih h)

theorem aupdate_of_not_mem {α β : Type} [DecidableEq α] {l : List (α × β)} {k : α}
    (h : alookup l k = none) (v : β) : aupdate l k v = l ++ [(k, v)] := by
  induction l with
  | nil => simp [aupdate]
  | cons p l ih =>
      obtain ⟨a, b⟩ := p
      by_cases ha : a = k
      · simp [alookup, ha] at h
      · simp [alookup, ha] at h
        simp [aupdate, ha, ih h]

theorem aupdate_of_mem {α β : Type} [DecidableEq α] {l : List (α × β)} {k : α} {w : β}
    (h : alookup l k = some w) (v : β) :
    ∃ l₁ l₂, l = l₁ ++ (k, w) :: l₂ ∧ aupdate l k v = l₁ ++ (k, v) :: l₂ ∧
      alookup l₁ k = none := by
  induction l with
  | nil => cases h
  | cons p l ih =>
      obtain ⟨a, b⟩ := p
      by_cases ha : a = k
      · subst ha
        simp [alookup] at h
        subst h
        exact ⟨[], l, by simp [aupdate, alookup]⟩
      · simp [alookup, ha] at h
        obtain ⟨l₁, l₂, h1, h2, h3⟩ := ih h
        exact ⟨(a, b) :: l₁, l₂, by simp [h1], by simp [aupdate, ha, h2],
          by simp [alookup, ha, h3]⟩

theorem aupdate_keys {α β : Type} [DecidableEq α] (l : List (α × β)) (k : α) (v : β) :
    (aupdate l k v).map Prod.fst = l.map Prod.fst ++ (if k ∈ l.map Prod.fst then [] else [k]) := by
  induction l with
  | nil => simp [aupdate]
  | cons p l ih =>
      obtain ⟨a, b⟩ := p
      by_cases ha : a = k
      · subst ha
        simp [aupdate, List.mem_cons]
      · have h2 : ¬ k = a := fun h => ha h.symm
        simp only [aupdate, ha, if_false, List.map_cons, List.mem_cons, ih]
        by_cases hk : k ∈ l.map Prod.fst <;> simp [hk, h2]

theorem aupdate_keys_nodup {α β : Type} [DecidableEq α] {l : List (α × β)} (k : α) (v : β)
    (h : (l.map Prod.fst).Nodup) : ((aupdate l k v).map Prod.fst).Nodup := by
  rw [aupdate_keys]
  by_cases hk : k ∈ l.map Prod.fst
  · simpa [hk] using h
  · simp only [hk, if_false, List.nodup_append, List.nodup_cons, List.nodup_nil]
    exact ⟨h, by simp, by simpa using hk⟩

theorem alookup_aerase_ne {α β : Type} [DecidableEq α] (l : List (α × β)) {k k' : α}
    (h : k ≠ k') : alookup (aerase l k') k = alookup l k := by
  induction l with
  | nil => simp [aerase]
  | cons p l ih =>
      obtain ⟨a, b⟩ := p
      by_cases ha : a = k'
      · subst ha
        have h2 : ¬ a = k := fun h2 => h h2.symm
        simp [aerase, alookup, h2]
      · simp only [aerase, ha, if_false]
        by_cases hak : a = k
        · simp [alookup, hak]
        · simp [alookup, hak, ih]

theorem aerase_of_not_mem {α β : Type} [DecidableEq α] {l : List (α × β)} {k : α}
    (h : k ∉ l.map Prod.fst) : aerase l k = l := by
  induction l with
  | nil => rfl
  | cons p l ih =>
      obtain ⟨a, b⟩ := p
      simp only [List.map_cons, List.mem_cons] at h
      push_neg at h
      have : ¬ a = k := fun h2 => h.1 h2.symm
      simp [aerase, this, ih h.2]

theorem aerase_append_left {α β : Type} [DecidableEq α] {l₁ : List (α × β)}
    (l₂ : List (α × β)) {k : α} (h : k ∉ l₁.map Prod.fst) :
    aerase (l₁ ++ l₂) k = l₁ ++ aerase l₂ k := by
  induction l₁ with
  | nil => simp
  | cons p l ih =>
      obtain ⟨a, b⟩ := p
      simp only [List.map_cons, List.mem_cons] at h
      push_neg at h
      have : ¬ a = k := fun h2 => h.1 h2.symm
      simp [aerase, this, ih h.2]

theorem aerase_cons_self {α β : Type} [DecidableEq α] (l : List (α × β)) (k : α) (v : β) :
    aerase ((k, v) :: l) k = l := by
  simp [aerase]

theorem aerase_eq_filter {α β : Type} [DecidableEq α] {l : List (α × β)} {k : α}
    (h : (l.map Prod.fst).Nodup) :
    aerase l k = l.filter (fun p => p.1 ≠ k) := by
  induction l with
  | nil => rfl
  | cons p l ih =>
      obtain ⟨a, b⟩ := p
      simp only [List.map_cons, List.nodup_cons] at h
      by_cases ha : a = k
      · subst ha
        have h2 : ∀ q ∈ l, (fun p : α × β => decide (p.1 ≠ a)) q = true := by
          intro q hq
          simp only [ne_eq, decide_eq_true_eq]
          intro h3
          exact h.1 (by rw [← h3]; exact List.mem_map_of_mem Prod.fst hq)
        rw [aerase_cons_self]
        rw [List.filter_cons_of_neg (by simp)]
        exact (List.filter_eq_self.mpr h2).symm
      · rw [List.filter_cons_of_pos (by simp [ha])]
        simp only [aerase, ha, if_false]
        rw [ih h.2]

theorem aerase_keys_sublist {α β : Type} [DecidableEq α] (l : List (α × β)) (k : α) :
    ((aerase l k).map Prod.fst).Sublist (l.map Prod.fst) := by
  induction l with
  | nil => simp [aerase]
  | cons p l ih =>
      obtain ⟨a, b⟩ := p
      by_cases ha : a = k
      · simp [aerase, ha]
      · simpa [aerase, ha] using ih.cons₂ a

theorem aerase_keys_nodup {α β : Type} [DecidableEq α] {l : List (α × β)} (k : α)
    (h : (l.map Prod.fst).Nodup) : ((aerase l k).map Prod.fst).Nodup :=
  h.sublist (aerase_keys_sublist l k)

theorem mem_aerase_ne {α β : Type} [DecidableEq α] {l : List (α × β)} {k : α}
    (h : (l.map Prod.fst).Nodup) {p : α × β} (hp : p ∈ aerase l k) : p.1 ≠ k := by
  rw [aerase_eq_filter h] at hp
  have := List.of_mem_filter hp
  simpa using this

theorem perm_cons_aerase {α β : Type} [DecidableEq α] {l : List (α × β)} {k : α} {v : β}
    (h : alookup l k = some v) : List.Perm l ((k, v) :: aerase l k) := by
  induction l with
  | nil => cases h
  | cons p l ih =>
      obtain ⟨a, b⟩ := p
      by_cases ha : a = k
      · subst ha
        simp [alookup] at h
        subst h
        simp [aerase]
      · simp [alookup, ha] at h
        simp only [aerase, ha, if_false]
        exact ((ih h).cons (a, b)).trans (List.Perm.swap _ _ _)

theorem alookup_append_not_mem {α β : Type} [DecidableEq α] {l₁ : List (α × β)}
    (l₂ : List (α × β)) {k : α} (h : k ∉ l₁.map Prod.fst) :
    alookup (l₁ ++ l₂) k = alookup l₂ k := by
  rw [alookup_append, (alookup_none_iff l₁ k).mpr h]
  rfl

theorem alookup_filter {α β : Type} [DecidableEq α] {l : List (α × β)}
    (h : (l.map Prod.fst).Nodup) (q : α × β → Bool) (k : α) :
    alookup (l.filter q) k =
      (alookup l k).bind (fun v => if q (k, v) then some v else none) := by
  induction l with
  | nil => simp [alookup]
  | cons p l ih =>
      obtain ⟨a, b⟩ := p
      simp only [List.map_cons, List.nodup_cons] at h
      by_cases ha : a = k
      · subst ha
        rcases hq : q (a, b) with _ | _
        · have : alookup (l.filter q) a = none := by
            apply (alookup_none_iff _ _).mpr
            intro hmem
            apply h.1
            obtain ⟨p', hp', he⟩ := List.mem_map.mp hmem
            exact he ▸ List.mem_map_of_mem Prod.fst (List.mem_of_mem_filter hp')
          simp [alookup, hq, this]
        · simp [alookup, hq]
      · rcases hq : q (a, b) with _ | _ <;>
          simp [alookup, ha, hq, ih h.2]

/-! ## The expiry sweep equals a filter of the index -/

theorem isExpired_of_lookup {s : CacheState} {now : Int} {key : String} {m : MetaEntry}
    (h : alookup s.metadata key = some m) : isExpired s now key = expiredMeta now m := by
  simp [isExpired, h, expiredMeta]

/-- Invariant of the `_cleanup_expired` loop: iterating over the keys of the
`post` part of the index removes exactly its expired entries (and only
touches disk paths belonging to those expired keys). -/
theorem cleanup_fold (now : Int) (mx : Nat) (dttl : Int) :
    ∀ (post pre : List (String × MetaEntry)) (d : List ((String × DataType) × FileBytes)),
    ((pre ++ post).map Prod.fst).Nodup →
    ∃ d',
      (post.map Prod.fst).foldl (cleanupStep now)
          { metadata := pre ++ post, disk := d, maxSizeBytes := mx, defaultTtl := dttl }
        = { metadata := pre ++ post.filter (fun p => !expiredMeta now p.2), disk := d',
            maxSizeBytes := mx, defaultTtl := dttl }
      ∧ ∀ q : String × DataType,
          q.1 ∉ (post.filter (fun p => expiredMeta now p.2)).map Prod.fst →
          alookup d' q = alookup d q := by
  intro post
  induction post with
  | nil => exact fun pre d _ => ⟨d, by simp, fun q _ => rfl⟩
  | cons hd post' ih =>
      intro pre d h
      obtain ⟨k, m⟩ := hd
      have hk_pre : k ∉ pre.map Prod.fst := by
        rw [List.map_append, List.nodup_append] at h
        exact fun hmem => h.2.2 hmem (by simp)
      have hlook : alookup (pre ++ (k, m) :: post') k = some m := by
        rw [alookup_append_not_mem _ hk_pre]
        simp [alookup]
      have hfold :
          ∀ st : CacheState, ((((k, m) :: post').map Prod.fst).foldl (cleanupStep now) st)
            = (post'.map Prod.fst).foldl (cleanupStep now) (cleanupStep now st k) := by
        intro st
        simp only [List.map_cons, List.foldl_cons]
      rcases hexp : expiredMeta now m with _ | _
      · -- not expired: the entry is kept, the state is unchanged by this step
        have hx : isExpired
            { metadata := pre ++ (k, m) :: post', disk := d,
              maxSizeBytes := mx, defaultTtl := dttl } now k = false := by
          rw [isExpired_of_lookup hlook, hexp]
        have hstep : cleanupStep now
            { metadata := pre ++ (k, m) :: post', disk := d,
              maxSizeBytes := mx, defaultTtl := dttl } k
            = { metadata := pre ++ (k, m) :: post', disk := d,
                maxSizeBytes := mx, defaultTtl := dttl } := by
          simp [cleanupStep, hx]
        have hre : pre ++ (k, m) :: post' = (pre ++ [(k, m)]) ++ post' := by simp
        obtain ⟨d', hmeta, hdisk⟩ := ih (pre ++ [(k, m)]) d (by rw [← hre]; exact h)
        refine ⟨d', ?_, ?_⟩
        · rw [hfold, hstep]
          simp only [List.singleton_append, List.append_assoc] at hmeta
          rw [hmeta]
          simp [List.filter_cons, hexp]
        · intro q hq
          apply hdisk
          intro hmem
          apply hq
          simpa [List.filter_cons, hexp] using hmem
      · -- expired: the entry's file and index record are removed
        have hx : isExpired
            { metadata := pre ++ (k, m) :: post', disk := d,
              maxSizeBytes := mx, defaultTtl := dttl } now k = true := by
          rw [isExpired_of_lookup hlook, hexp]
        have hstep : cleanupStep now
            { metadata := pre ++ (k, m) :: post', disk := d,
              maxSizeBytes := mx, defaultTtl := dttl } k
            = { metadata := pre ++ post', disk := aerase d (cachePath k m.data_type),
                maxSizeBytes := mx, defaultTtl := dttl } := by
          simp only [cleanupStep, hx, if_true, hlook]
          rw [aerase_append_left _ hk_pre, aerase_cons_self]
        have hnd : ((pre ++ post').map Prod.fst).Nodup := by
          apply h.sublist
          rw [List.map_append, List.map_append, List.map_cons]
          exact (List.sublist_cons_self k (post'.map Prod.fst)).append_left _
        obtain ⟨d', hmeta, hdisk⟩ := ih pre (aerase d (cachePath k m.data_type)) hnd
        refine ⟨d', ?_, ?_⟩
        · rw [hfold, hstep, hmeta]
          simp [List.filter_cons, hexp]
        · intro q hq
          have hq' : q.1 ∉ ((k, m) :: post'.filter (fun p => expiredMeta now p.2)).map Prod.fst := by
            simpa [List.filter_cons, hexp] using hq
          simp only [List.map_cons, List.mem_cons] at hq'
          push_neg at hq'
          rw [hdisk q hq'.2]
          exact alookup_aerase_ne d (fun he => hq'.1 (by rw [he]; rfl))

/-- `_cleanup_expired` keeps exactly the unexpired entries of the index, in
order, and leaves the files of unexpired keys untouched. -/
theorem cleanupExpired_spec (s : CacheState) (now : Int)
    (h : (s.metadata.map Prod.fst).Nodup) :
    ∃ d',
      cleanupExpired s now
        = { metadata := s.metadata.filter (fun p => !expiredMeta now p.2), disk := d',
            maxSizeBytes := s.maxSizeBytes, defaultTtl := s.defaultTtl }
      ∧ ∀ q : String × DataType,
          q.1 ∉ (s.metadata.filter (fun p => expiredMeta now p.2)).map Prod.fst →
          alookup d' q = alookup s.disk q := by
  obtain ⟨meta, d, mx, dttl⟩ := s
  obtain ⟨d', h1, h2⟩ := cleanup_fold now mx dttl meta [] d (by simpa using h)
  exact ⟨d', by simpa [cleanupExpired] using h1, h2⟩

/-! ## The size sweep removes a minimal LRU prefix -/

theorem alookup_of_mem_nodup {α β : Type} [DecidableEq α] {l : List (α × β)} {k : α} {v : β}
    (hnd : (l.map Prod.fst).Nodup) (hmem : (k, v) ∈ l) : alookup l k = some v := by
  induction l with
  | nil => cases hmem
  | cons p l ih =>
      obtain ⟨a, b⟩ := p
      simp only [List.map_cons, List.nodup_cons] at hnd
      rcases List.mem_cons.mp hmem with he | hmem'
      · obtain ⟨h1, h2⟩ := Prod.mk.injEq .. ▸ he
        simp [alookup, h1.symm, h2]
      · have ha : ¬ a = k := by
          intro h2
          exact hnd.1 (h2 ▸ List.mem_map_of_mem Prod.fst hmem')
        simp [alookup, ha, ih hnd.2 hmem']

theorem removeEntries_cons (st : CacheState) (p : String × MetaEntry)
    (l : List (String × MetaEntry)) :
    removeEntries st (p :: l) = removeEntries (removeEntry st p) l := rfl

theorem removeEntry_metadata (st : CacheState) (p : String × MetaEntry) :
    (removeEntry st p).metadata = aerase st.metadata p.1 := rfl

theorem removeEntries_maxSize (st : CacheState) (l : List (String × MetaEntry)) :
    (removeEntries st l).maxSizeBytes = st.maxSizeBytes := by
  induction l generalizing st with
  | nil => rfl
  | cons p l ih => exact ih (removeEntry st p)

theorem removeEntries_defaultTtl (st : CacheState) (l : List (String × MetaEntry)) :
    (removeEntries st l).defaultTtl = st.defaultTtl := by
  induction l generalizing st with
  | nil => rfl
  | cons p l ih => exact ih (removeEntry st p)

theorem removeEntries_disk_preserved (st : CacheState) (l : List (String × MetaEntry))
    (q : String × DataType) (h : q.1 ∉ l.map Prod.fst) :
    alookup (removeEntries st l).disk q = alookup st.disk q := by
  induction l generalizing st with
  | nil => rfl
  | cons p l ih =>
      simp only [List.map_cons, List.mem_cons] at h
      push_neg at h
      rw [removeEntries_cons, ih _ h.2]
      exact alookup_aerase_ne st.disk (fun he => h.1 (by rw [he]; rfl))

theorem removeEntries_keys_nodup {st : CacheState} (l : List (String × MetaEntry))
    (h : (st.metadata.map Prod.fst).Nodup) :
    ((removeEntries st l).metadata.map Prod.fst).Nodup := by
  induction l generalizing st with
  | nil => exact h
  | cons p l ih =>
      rw [removeEntries_cons]
      exact ih (aerase_keys_nodup p.1 h)

theorem removeEntries_metadata_filter (st : CacheState) (l : List (String × MetaEntry))
    (h : (st.metadata.map Prod.fst).Nodup) :
    (removeEntries st l).metadata
      = st.metadata.filter (fun p => decide (p.1 ∉ l.map Prod.fst)) := by
  induction l generalizing st with
  | nil => simp [removeEntries]
  | cons q l ih =>
      rw [removeEntries_cons, ih _ (aerase_keys_nodup q.1 h)]
      rw [removeEntry_metadata, aerase_eq_filter h, List.filter_filter]
      apply List.filter_congr
      intro p _
      by_cases h1 : p.1 = q.1 <;> by_cases h2 : p.1 ∈ l.map Prod.fst <;>
        simp [h1, h2]

theorem entryDiskSize_removeEntry_ne (st : CacheState) {p q : String × MetaEntry}
    (h : q.1 ≠ p.1) :
    entryDiskSize (removeEntry st p) q.1 q.2 = entryDiskSize st q.1 q.2 := by
  unfold entryDiskSize removeEntry
  rw [alookup_aerase_ne st.disk (fun he => h (congrArg (@Prod.fst String DataType) he))]

/-- Removing an indexed entry splits the total on-disk size into the
entry's contribution and the rest. -/
theorem totalIndexedSize_removeEntry {st : CacheState} {k : String} {m : MetaEntry}
    (hnd : (st.metadata.map Prod.fst).Nodup) (hlook : alookup st.metadata k = some m) :
    totalIndexedSize st
      = entryDiskSize st k m + totalIndexedSize (removeEntry st (k, m)) := by
  have hperm := perm_cons_aerase hlook
  have h1 : totalIndexedSize st
      = ((((k, m) :: aerase st.metadata k)).map
          (fun p => entryDiskSize st p.1 p.2)).sum := by
    unfold totalIndexedSize
    exact List.Perm.sum_eq (hperm.map (fun p => entryDiskSize st p.1 p.2))
  rw [h1]
  simp only [List.map_cons, List.sum_cons]
  congr 1
  have h2 : (removeEntry st (k, m)).metadata = aerase st.metadata k := rfl
  unfold totalIndexedSize
  rw [h2]
  apply congrArg
  apply List.map_congr_left
  intro p hp
  exact (entryDiskSize_removeEntry_ne st (mem_aerase_ne hnd hp)).symm

/-- Invariant of the `_enforce_size_limit` deletion loop: starting from the
true total, the loop removes precisely the shortest prefix of its (sorted)
entry list that brings the total within the `maxSize` budget. -/
theorem sweepLoop_spec (mx : Nat) :
    ∀ (l : List (String × MetaEntry)) (st : CacheState),
    (st.metadata.map Prod.fst).Nodup → List.Perm l st.metadata →
    ∃ n, n ≤ l.length ∧
      sweepLoop mx l (totalIndexedSize st) st = removeEntries st (l.take n) ∧
      totalIndexedSize (removeEntries st (l.take n)) ≤ mx ∧
      ∀ j, j < n → mx < totalIndexedSize (removeEntries st (l.take j)) := by
  intro l
  induction l with
  | nil =>
      intro st _ hperm
      have : st.metadata = [] := (List.Perm.nil_eq hperm).symm
      refine ⟨0, by simp, by simp [sweepLoop, removeEntries], ?_, by simp⟩
      simp [removeEntries, totalIndexedSize, this]
  | cons hd rest ih =>
      intro st hnd hperm
      obtain ⟨k, m⟩ := hd
      by_cases htot : totalIndexedSize st ≤ mx
      · exact ⟨0, by simp, by simp [sweepLoop, htot, removeEntries], by simpa [removeEntries],
          by simp⟩
      · have hmem : (k, m) ∈ st.metadata := hperm.mem_iff.mp (by simp)
        have hlook : alookup st.metadata k = some m := alookup_of_mem_nodup hnd hmem
        have hsplit := totalIndexedSize_removeEntry hnd hlook
        have hnd' : ((removeEntry st (k, m)).metadata.map Prod.fst).Nodup :=
          aerase_keys_nodup k hnd
        have hperm' : List.Perm rest (removeEntry st (k, m)).metadata := by
          have h2 : List.Perm st.metadata ((k, m) :: aerase st.metadata k) :=
            perm_cons_aerase hlook
          exact (((hperm.trans h2)).cons_inv)
        obtain ⟨n', hn'len, heq, hle, hmin⟩ := ih (removeEntry st (k, m)) hnd' hperm'
        have hstep : sweepLoop mx ((k, m) :: rest) (totalIndexedSize st) st
            = sweepLoop mx rest (totalIndexedSize (removeEntry st (k, m)))
                (removeEntry st (k, m)) := by
          rcases hdisk : alookup st.disk (cachePath k m.data_type) with _ | content
          · have hz : entryDiskSize st k m = 0 := by simp [entryDiskSize, hdisk]
            have hde : aerase st.disk (cachePath k m.data_type) = st.disk :=
              aerase_of_not_mem ((alookup_none_iff _ _).mp hdisk)
            have hre : removeEntry st (k, m)
                = { st with metadata := aerase st.metadata k } := by
              unfold removeEntry
              rw [hde]
            simp only [sweepLoop, htot, if_false, hdisk]
            rw [hre]
            congr 1
            rw [hsplit, hz, Nat.zero_add, hre]
          · have hsz : entryDiskSize st k m = content.size := by
              simp [entryDiskSize, hdisk]
            simp only [sweepLoop, htot, if_false, hdisk]
            have harith : totalIndexedSize st - content.size
                = totalIndexedSize (removeEntry st (k, m)) := by
              rw [hsplit, hsz, Nat.add_sub_cancel_left]
            rw [harith]
            rfl
        refine ⟨n' + 1, by simpa using hn'len, ?_, ?_, ?_⟩
        · rw [hstep, heq]
          rfl
        · simpa [removeEntries_cons] using hle
        · intro j hj
          match j with
          | 0 => simpa [removeEntries] using Nat.lt_of_not_le htot
          | j' + 1 =>
              have := hmin j' (by omega)
              simpa [removeEntries_cons] using this

/-- `_enforce_size_limit` removes a minimal prefix of the entries sorted by
ascending `last_access`, leaving the total within the byte budget. -/
theorem enforceSizeLimit_spec (s : CacheState)
    (h : (s.metadata.map Prod.fst).Nodup) :
    ∃ n,
      enforceSizeLimit s
        = removeEntries s ((List.insertionSort laLE s.metadata).take n) ∧
      totalIndexedSize (enforceSizeLimit s) ≤ s.maxSizeBytes ∧
      ∀ j, j < n →
        s.maxSizeBytes
          < totalIndexedSize (removeEntries s ((List.insertionSort laLE s.metadata).take j)) := by
  by_cases htot : totalIndexedSize s ≤ s.maxSizeBytes
  · refine ⟨0, ?_, ?_, by simp⟩
    · simp [enforceSizeLimit, htot, removeEntries]
    · simp [enforceSizeLimit, htot]
  · obtain ⟨n, _, heq, hle, hmin⟩ := sweepLoop_spec s.maxSizeBytes
      (List.insertionSort laLE s.metadata) s h (List.perm_insertionSort laLE s.metadata)
    refine ⟨n, ?_, ?_, hmin⟩
    · rw [enforceSizeLimit]
      simp only [htot, if_false]
      exact heq
    · rw [enforceSizeLimit]
      simp only [htot, if_false]
      rw [heq]
      exact hle

/-! ## Further helper lemmas -/

theorem alookup_aupdate_self {α β : Type} [DecidableEq α] (l : List (α × β)) (k : α) (v : β) :
    alookup (aupdate l k v) k = some v := by
  induction l with
  | nil => simp [aupdate, alookup]
  | cons p l ih =>
      obtain ⟨a, b⟩ := p
      by_cases ha : a = k <;> simp [aupdate, alookup, ha, ih]

theorem alookup_aupdate_ne {α β : Type} [DecidableEq α] (l : List (α × β)) {k k' : α}
    (h : k' ≠ k) (v : β) : alookup (aupdate l k v) k' = alookup l k' := by
  induction l with
  | nil =>
      have h2 : ¬ k = k' := fun he => h he.symm
      simp [aupdate, alookup, h2]
  | cons p l ih =>
      obtain ⟨a, b⟩ := p
      by_cases ha : a = k
      · have h2 : ¬ k = k' := fun he => h he.symm
        have h3 : ¬ a = k' := fun he => h2 (ha ▸ he)
        simp [aupdate, alookup, ha, h2, h3]
      · by_cases hak : a = k' <;> simp [aupdate, alookup, ha, hak, ih, h]

theorem orderedInsert_append_last (x e : String × MetaEntry) (ys : List (String × MetaEntry))
    (h : laLE x e) :
    List.orderedInsert laLE x (ys ++ [e]) = List.orderedInsert laLE x ys ++ [e] := by
  induction ys with
  | nil => simp [List.orderedInsert, h]
  | cons y ys ih =>
      by_cases hxy : laLE x y <;> simp [List.orderedInsert, hxy, ih]

/-- Stability of the LRU sort: an entry whose `last_access` is at least
every other entry's and that sits last in the index stays last after
sorting. -/
theorem insertionSort_append_last (l : List (String × MetaEntry)) (e : String × MetaEntry)
    (h : ∀ x ∈ l, laLE x e) :
    List.insertionSort laLE (l ++ [e]) = List.insertionSort laLE l ++ [e] := by
  induction l with
  | nil => simp
  | cons x l ih =>
      have h1 : List.insertionSort laLE ((x :: l) ++ [e])
          = List.orderedInsert laLE x (List.insertionSort laLE (l ++ [e])) := rfl
      rw [h1, ih (fun y hy => h y (List.mem_cons_of_mem x hy)),
        orderedInsert_append_last x e _ (h x (List.mem_cons_self x l))]
      rfl

/-- Decoding inverts encoding for the auto-detected format. -/
theorem deserialize_autoType (v : Value) :
    deserialize v.autoType (FileBytes.ser v.autoType v) = some v := by
  cases v <;> rfl

theorem filter_length_partition {α : Type} (l : List α) (p : α → Bool) :
    (l.filter p).length + (l.filter (fun a => !p a)).length = l.length := by
  induction l with
  | nil => rfl
  | cons a l ih =>
      rcases hp : p a with _ | _ <;> simp [List.filter_cons, hp] <;> omega

/-- The per-item results of a sequential run: one result per item, each
depending only on its own item, and the clock advanced by the sum of the
items' durations. -/
theorem processSequential_spec (items : List WorkItem) (ps : ProcState) :
    (processSequential items ps).1 = items.map singleResult ∧
    (processSequential items ps).2.clock = ps.clock + (items.map WorkItem.dur).sum := by
  induction items generalizing ps with
  | nil => simp [processSequential]
  | cons it rest ih =>
      obtain ⟨h1, h2⟩ := ih { ps with
        clock := ps.clock + it.dur
        cache_misses :=
          match it.outcome with
          | .stationNotFound => ps.cache_misses
          | _ => ps.cache_misses + 1 }
      constructor
      · simp [processSequential, processSingleStation, h1]
      · simp only [processSequential, processSingleStation]
        rw [h2]
        simp [Nat.add_assoc]

theorem singleResult_time_le (it : WorkItem) :
    (singleResult it).processing_time ≤ it.dur := by
  cases h : it.outcome <;> simp [singleResult, h]

/-- If every yielded chunk's transform succeeds, the accumulation loop
collects exactly their row lists. -/
theorem streamAccum_ok (l : List ChunkSpec) (h : ∀ c ∈ l, bodyProduces c = true) :
    streamAccum l = .ok (l.map producedRows) := by
  induction l with
  | nil => rfl
  | cons c l ih =>
      have hc := h c (List.mem_cons_self c l)
      rcases hb : c.body with msg | rs
      · rw [bodyProduces, hb] at hc
        cases hc
      · simp only [streamAccum, hb, ih (fun c' hc' => h c' (List.mem_cons_of_mem c hc'))]
        simp [producedRows, hb]

/-- If some yielded chunk's transform raises, the accumulation loop
propagates an error. -/
theorem streamAccum_error (l : List ChunkSpec) (c : ChunkSpec) (hmem : c ∈ l)
    (h : bodyProduces c = false) : ∃ msg, streamAccum l = .error msg := by
  induction l with
  | nil => cases hmem
  | cons c' l ih =>
      rcases hb : c'.body with msg | rs
      · exact ⟨msg, by simp [streamAccum, hb]⟩
      · rcases List.mem_cons.mp hmem with he | hmem'
        · subst he
          rw [bodyProduces, hb] at h
          cases h
        · obtain ⟨msg, hmsg⟩ := ih hmem'
          exact ⟨msg, by simp [streamAccum, hb, hmsg]⟩

theorem readKnmiDataChunked_skip (pre post : List ChunkSpec) (c : ChunkSpec)
    (h : chunkYielded c = false) :
    readKnmiDataChunked (pre ++ c :: post) = readKnmiDataChunked (pre ++ post) := by
  simp [readKnmiDataChunked, List.filter_append, List.filter_cons, h]

/-! ## Claim theorems -/

/-- C9: for every key absent from the index (never `set`), `has` returns
false and `get` returns a miss (the default value) leaving the state
untouched, without raising an exception. -/
theorem unset_key_miss (s : CacheState) (now : Int) (key : String)
    (h : alookup s.metadata key = none) :
    cacheHas s now key = false ∧ cacheGet s now key = (none, s) := by
  have hexp : isExpired s now key = true := by simp [isExpired, h]
  exact ⟨by simp [cacheHas, hexp], by simp [cacheGet, hexp]⟩

/-- Witness for C9 on a fresh cache directory and an arbitrary key. -/
theorem unset_key_miss_witness :
    cacheHas (emptyCache 1000 86400) 0 "nokey" = false
    ∧ cacheGet (emptyCache 1000 86400) 0 "nokey" = (none, emptyCache 1000 86400) :=
  unset_key_miss (emptyCache 1000 86400) 0 "nokey" rfl

/-- C10: an empty batch returns an empty results list and all-zero
statistics; the average-time division is guarded, so no division-by-zero
error is raised. -/
theorem empty_batch_stats (startClock : Nat) :
    processBatch [] startClock
      = ([], { total_stations := 0, successful := 0, failed := 0, total_time := 0,
               average_time_per_station := 0, total_data_records := 0,
               cache_hits := 0, cache_misses := 0 }) := by
  simp [processBatch, processSequential, generateBatchStats]

/-- C2 counterexample: a pipeline exception whose `str(e)` is the empty
string yields a failed result whose error message is empty, contradicting
the claim that every caught error produces a *non-empty* error message. -/
theorem batch_empty_message_cex :
    (processBatch [emptyMsgItem] 0).1.map (fun r => (r.success, r.error_message))
      = [(false, some "")] := by decide

/-- C2 (amended): every batch run completes with exactly one result per
submitted item, in order; each result is a function of its own item alone,
so a failing item never aborts the batch or affects other items; every
pipeline failure is converted into a `success = false` result carrying an
error message (never silently dropped), the message being the exception's
own text for raised errors — hence non-empty exactly when the exception's
message is. -/
theorem batch_failure_isolation (items : List WorkItem) (startClock : Nat) :
    (processBatch items startClock).1.length = items.length
    ∧ (processBatch items startClock).1 = items.map singleResult
    ∧ (∀ it : WorkItem, (singleResult it).success = false →
        (singleResult it).error_message ≠ none)
    ∧ (∀ (it : WorkItem) (msg : String), it.outcome = .raised msg →
        (singleResult it).success = false ∧ (singleResult it).error_message = some msg)
    ∧ (∀ it : WorkItem, it.outcome = .stationNotFound →
        (singleResult it).success = false
        ∧ (singleResult it).error_message
            = some ("Station " ++ it.stationId ++ " not found"))
    ∧ (∀ it : WorkItem, it.outcome = .downloadFailed →
        (singleResult it).success = false
        ∧ (singleResult it).error_message
            = some ("Failed to download data for station " ++ it.stationId
                ++ " year " ++ toString it.year))
    ∧ (∀ it : WorkItem, it.outcome = .validationFailed →
        (singleResult it).success = false
        ∧ (singleResult it).error_message
            = some ("Data validation failed for station " ++ it.stationId
                ++ " year " ++ toString it.year))
    ∧ (∀ (it : WorkItem) (records : Nat) (path : String),
        it.outcome = .success records path →
        (singleResult it).success = true ∧ (singleResult it).data_records = records) := by
  obtain ⟨hres, _⟩ := processSequential_spec items
    { clock := startClock, cache_hits := 0, cache_misses := 0 }
  refine ⟨?_, ?_, ?_, ?_, ?_, ?_, ?_, ?_⟩
  · show (processSequential items _).1.length = _
    rw [hres, List.length_map]
  · exact hres
  · intro it hfail
    cases h : it.outcome
    · simp [singleResult, h]
    · simp [singleResult, h]
    · simp [singleResult, h]
    · simp [singleResult, h]
    · simp [singleResult, h] at hfail
  · intro it msg h
    simp [singleResult, h]
  · intro it h
    simp [singleResult, h]
  · intro it h
    simp [singleResult, h]
  · intro it h
    simp [singleResult, h]
  · intro it records path h
    simp [singleResult, h]

/-- Witness for C2 on a two-item batch with one success and one download
failure. -/
theorem batch_failure_isolation_witness :
    (processBatch [demoOkItem, demoFailItem] 0).1
        = [singleResult demoOkItem, singleResult demoFailItem]
    ∧ (singleResult demoFailItem).success = false
    ∧ (singleResult demoFailItem).error_message ≠ none := by
  obtain ⟨-, h2, h3, -⟩ := batch_failure_isolation [demoOkItem, demoFailItem] 0
  exact ⟨h2, by decide, h3 demoFailItem (by decide)⟩

/-- C8: the returned statistics satisfy the aggregation contract: `total`
is the number of results, `successful`/`failed` partition the results by
the success flag, `totalTime` is the wall-clock duration of the whole
`process_batch` call (the final clock minus the start clock — not the sum
of the per-item recorded durations, which is merely bounded by it),
`averageTimePerStation` is `totalTime / total` for a non-empty run, and
`totalDataRecords` sums `data_records` over successful results only. -/
theorem batch_stats_aggregation (items : List WorkItem) (startClock : Nat) :
    (processBatch items startClock).2.total_stations
        = (processBatch items startClock).1.length
    ∧ (processBatch items startClock).2.successful
        = ((processBatch items startClock).1.filter (fun r => r.success)).length
    ∧ (processBatch items startClock).2.failed
        = ((processBatch items startClock).1.filter (fun r => !r.success)).length
    ∧ (processBatch items startClock).2.successful
          + (processBatch items startClock).2.failed
        = (processBatch items startClock).2.total_stations
    ∧ (processBatch items startClock).2.total_time
        = (processSequential items
            { clock := startClock, cache_hits := 0, cache_misses := 0 }).2.clock - startClock
    ∧ (processBatch items startClock).2.total_time = (items.map WorkItem.dur).sum
    ∧ ((processBatch items startClock).1.map (fun r => r.processing_time)).sum
        ≤ (processBatch items startClock).2.total_time
    ∧ ((processBatch items startClock).1 ≠ [] →
        (processBatch items startClock).2.average_time_per_station
          = ((processBatch items startClock).2.total_time : ℚ)
            / ((processBatch items startClock).1.length : ℚ))
    ∧ ((processBatch items startClock).1 = [] →
        (processBatch items startClock).2.average_time_per_station = 0)
    ∧ (processBatch items startClock).2.total_data_records
        = (((processBatch items startClock).1.filter (fun r => r.success)).map
            (fun r => r.data_records)).sum := by
  obtain ⟨hres, hclock⟩ := processSequential_spec items
    { clock := startClock, cache_hits := 0, cache_misses := 0 }
  have hpart := filter_length_partition (processBatch items startClock).1
    (fun r => r.success)
  refine ⟨rfl, rfl, ?_, ?_, rfl, ?_, ?_, ?_, ?_, rfl⟩
  · show (processBatch items startClock).1.length
        - ((processBatch items startClock).1.filter (fun r => r.success)).length = _
    omega
  · show ((processBatch items startClock).1.filter (fun r => r.success)).length
        + ((processBatch items startClock).1.length
            - ((processBatch items startClock).1.filter (fun r => r.success)).length)
        = (processBatch items startClock).1.length
    omega
  · show (processSequential items _).2.clock - startClock = _
    rw [hclock, Nat.add_sub_cancel_left]
  · show ((processSequential items _).1.map (fun r => r.processing_time)).sum
        ≤ (processSequential items _).2.clock - startClock
    rw [hclock, Nat.add_sub_cancel_left, hres, List.map_map]
    exact List.sum_le_sum (fun it _ => singleResult_time_le it)
  · intro hne
    show (if (processSequential items _).1.isEmpty then (0 : ℚ) else _) = _
    rw [if_neg (by simpa [List.isEmpty_iff] using hne)]
    rfl
  · intro hemp
    show (if (processSequential items _).1.isEmpty then (0 : ℚ) else _) = 0
    rw [if_pos (by simpa [List.isEmpty_iff] using hemp)]

/-- Witness for C8 on a one-item batch. -/
theorem batch_stats_aggregation_witness :
    (processBatch [demoOkItem] 3).2.average_time_per_station
      = ((processBatch [demoOkItem] 3).2.total_time : ℚ)
        / ((processBatch [demoOkItem] 3).1.length : ℚ) := by
  obtain ⟨-, -, -, -, -, -, -, h8, -⟩ := batch_stats_aggregation [demoOkItem] 3
  exact h8 (by decide)

/-- C3: `get` returns a cached value only when the entry is indexed,
unexpired, and the checksum recomputed over the bytes currently on disk
matches the stored checksum; when the entry is expired or the checksum
mismatches (or the file is missing), `get` returns a miss and leaves the
state — the payload file and the index record included — completely
untouched; being a total function, it raises no exception. -/
theorem get_miss_semantics (s : CacheState) (now : Int) (key : String) :
    ((cacheGet s now key).1.isSome = true →
        isExpired s now key = false
        ∧ verifyIntegrity s key
            (cachePath key (((alookup s.metadata key).map MetaEntry.data_type).getD .pickle))
          = true)
    ∧ (isExpired s now key = true → cacheGet s now key = (none, s))
    ∧ (verifyIntegrity s key
          (cachePath key (((alookup s.metadata key).map MetaEntry.data_type).getD .pickle))
        = false → cacheGet s now key = (none, s)) := by
  by_cases hexp : isExpired s now key = true
  · refine ⟨?_, fun _ => ?_, fun _ => ?_⟩ <;> simp [cacheGet, hexp]
  · have hexp' : isExpired s now key = false := by
      rcases h : isExpired s now key with _ | _
      · rfl
      · exact absurd h hexp
    rcases hdisk : alookup s.disk
        (cachePath key (((alookup s.metadata key).map MetaEntry.data_type).getD .pickle))
        with _ | content
    · have hv : verifyIntegrity s key
          (cachePath key (((alookup s.metadata key).map MetaEntry.data_type).getD .pickle))
          = false := by
        unfold verifyIntegrity
        rw [hdisk]
        rcases alookup s.metadata key with _ | m <;> rfl
      refine ⟨?_, fun h => absurd h (by simp [hexp']), fun _ => ?_⟩ <;>
        simp [cacheGet, hexp', hdisk]
    · by_cases hv : verifyIntegrity s key
          (cachePath key (((alookup s.metadata key).map MetaEntry.data_type).getD .pickle))
          = true
      · refine ⟨fun _ => ⟨hexp', hv⟩, fun h => absurd h (by simp [hexp']),
          fun h => absurd h (by simp [hv])⟩
      · have hv' : verifyIntegrity s key
            (cachePath key (((alookup s.metadata key).map MetaEntry.data_type).getD .pickle))
            = false := by
          rcases h : verifyIntegrity s key
              (cachePath key (((alookup s.metadata key).map MetaEntry.data_type).getD .pickle))
            with _ | _
          · rfl
          · exact absurd h hv
        refine ⟨?_, fun h => absurd h (by simp [hexp']), fun _ => ?_⟩ <;>
          simp [cacheGet, hexp', hdisk, hv']

/-- Witness for C3: a corrupted entry (on-disk bytes altered after `set`)
fails the integrity check, and `get` reports a plain miss leaving the
state unchanged. -/
theorem get_miss_semantics_witness :
    verifyIntegrity corruptState "k"
        (cachePath "k" (((alookup corruptState.metadata "k").map
          MetaEntry.data_type).getD .pickle)) = false
    ∧ cacheGet corruptState 0 "k" = (none, corruptState) :=
  ⟨by decide, (get_miss_semantics corruptState 0 "k").2.2 (by decide)⟩

/-- C4 counterexample: a freshly cached, unexpired, integrity-valid
DataFrame entry (data type `csv`) for which `has` nevertheless returns
false — `has` checks the path under the *default* `pickle` extension and
never verifies integrity, so the claimed equivalence fails. -/
theorem has_data_type_cex :
    cacheHas hasCexState 0 "k" = false
    ∧ isExpired hasCexState 0 "k" = false
    ∧ verifyIntegrity hasCexState "k" (cachePath "k" DataType.csv) = true := by
  exact ⟨by decide, by decide, by decide⟩

/-- C4 (amended): `has(key)` returns true iff the entry is unexpired
(indexed with `now - created_time ≤ ttl`) and a file exists at the key's
path under the *default* data type `pickle`; integrity is not verified and
the entry's actual data type is ignored, so an unexpired valid `csv` or
`json` entry reports false. -/
theorem has_characterization (s : CacheState) (now : Int) (key : String) :
    cacheHas s now key = true ↔
      ((∃ m, alookup s.metadata key = some m ∧ now - m.created_time ≤ m.ttl)
        ∧ ∃ b, alookup s.disk (cachePath key DataType.pickle) = some b) := by
  unfold cacheHas isExpired
  rcases h : alookup s.metadata key with _ | m
  · simp
  · rcases hd : alookup s.disk (cachePath key DataType.pickle) with _ | b <;>
      simp [h, hd, not_lt]

/-- Witness for the amended C4 characterization: a pickled entry makes
`has` true via the pickle-path check, while the counterexample state keeps
it false. -/
theorem has_characterization_witness :
    cacheHas (cacheSet (emptyCache 1000 86400) 0 "k" (.obj 1) (some 100)) 0 "k" = true :=
  (has_characterization (cacheSet (emptyCache 1000 86400) 0 "k" (.obj 1) (some 100))
      0 "k").mpr
    ⟨⟨newMeta 0 100 (.obj 1), by decide, by decide⟩, ⟨FileBytes.ser .pickle (.obj 1), by decide⟩⟩

/-- C6 counterexample: a stream whose first chunk parses and transforms
successfully and whose second chunk's transform stage raises: the whole
call aborts with a wrapped `DataValidationError` instead of skipping the
failing chunk and returning the other chunk's records. -/
theorem streaming_abort_cex :
    processWeatherDataStreaming streamCexChunks
      = .error "Streaming weather data processing failed: boom" := by rfl

/-- C6 (amended): a chunk whose *parsing* raises (or that comes out empty)
is skipped with a logged warning and does not abort the stream; an error
raised by the *transform stages* of any yielded chunk aborts the whole run
with a wrapped validation error; when every yielded chunk transforms
successfully, the result is exactly the concatenation of their records
sorted by the timestamp index (empty only when every chunk contributed no
rows); and when no chunk at all is yielded, the call raises the
`No data chunks were successfully processed` validation error rather than
returning an empty result. -/
theorem streaming_partial_success :
    (∀ (pre post : List ChunkSpec) (c : ChunkSpec), chunkYielded c = false →
        processWeatherDataStreaming (pre ++ c :: post)
          = processWeatherDataStreaming (pre ++ post))
    ∧ (∀ chunks : List ChunkSpec, readKnmiDataChunked chunks = [] →
        processWeatherDataStreaming chunks
          = .error ("Streaming weather data processing failed: "
              ++ "No data chunks were successfully processed"))
    ∧ (∀ chunks : List ChunkSpec,
        (∀ c ∈ readKnmiDataChunked chunks, bodyProduces c = true) →
        readKnmiDataChunked chunks ≠ [] →
        ∃ rows, processWeatherDataStreaming chunks = .ok rows
          ∧ List.Perm rows ((readKnmiDataChunked chunks).map producedRows).flatten
          ∧ List.Sorted tsLE rows
          ∧ (rows = [] ↔ ((readKnmiDataChunked chunks).map producedRows).flatten = []))
    ∧ (∀ (chunks : List ChunkSpec) (c : ChunkSpec), c ∈ readKnmiDataChunked chunks →
        bodyProduces c = false →
        ∃ msg, processWeatherDataStreaming chunks
          = .error ("Streaming weather data processing failed: " ++ msg)) := by
  refine ⟨?_, ?_, ?_, ?_⟩
  · intro pre post c hc
    unfold processWeatherDataStreaming
    rw [readKnmiDataChunked_skip pre post c hc]
  · intro chunks h
    unfold processWeatherDataStreaming
    rw [h]
    rfl
  · intro chunks hall hne
    unfold processWeatherDataStreaming
    rw [streamAccum_ok _ hall]
    have hne' : ((readKnmiDataChunked chunks).map producedRows).isEmpty = false := by
      simp [List.isEmpty_iff, hne]
    simp only [hne', Bool.false_eq_true, if_false]
    refine ⟨_, rfl, List.perm_insertionSort tsLE _, List.sorted_insertionSort tsLE _, ?_⟩
    have hlen := (List.perm_insertionSort tsLE
      ((readKnmiDataChunked chunks).map producedRows).flatten).length_eq
    constructor
    · intro he
      apply List.eq_nil_of_length_eq_zero
      rw [← hlen, he]
      rfl
    · intro he
      apply List.eq_nil_of_length_eq_zero
      rw [hlen, he]
      rfl
  · intro chunks c hmem hfail
    obtain ⟨msg, hmsg⟩ := streamAccum_error _ c hmem hfail
    refine ⟨msg, ?_⟩
    unfold processWeatherDataStreaming
    rw [hmsg]

/-- Witness for C6: a three-chunk source whose middle chunk fails to parse;
the two yielded chunks transform fine, and the result holds both chunks'
rows sorted by timestamp. -/
theorem streaming_partial_success_witness :
    ∃ rows, processWeatherDataStreaming demoChunks = Except.ok rows
      ∧ List.Perm rows [(1, 5), (0, 6)] ∧ List.Sorted tsLE rows := by
  obtain ⟨rows, h1, h2, h3, -⟩ :=
    (streaming_partial_success).2.2.1 demoChunks (by decide) (by decide)
  have he : ((readKnmiDataChunked demoChunks).map producedRows).flatten
      = [(1, 5), (0, 6)] := by decide
  rw [he] at h2
  exact ⟨rows, h1, h2, h3⟩

/-- C1: every `set` runs the eviction pass: the expiry sweep first removes
exactly the indexed entries whose age strictly exceeds their ttl; the size
sweep then deletes entries in ascending `last_access` order — a minimal
prefix of the stable LRU sort of the remaining entries — until the total
on-disk size of the remaining indexed entries is at most the configured
byte budget `max_size_bytes`. -/
theorem set_eviction_pass (s : CacheState) (now : Int) (key : String) (v : Value)
    (ttlOpt : Option Int) (hnd : (s.metadata.map Prod.fst).Nodup) :
    ∃ n : Nat,
      let wp := writePhase s now key v ttlOpt
      let s2 := cleanupExpired wp now
      let sorted := List.insertionSort laLE s2.metadata
      s2.metadata = wp.metadata.filter (fun p => !expiredMeta now p.2)
      ∧ cacheSet s now key v ttlOpt = removeEntries s2 (sorted.take n)
      ∧ totalIndexedSize (cacheSet s now key v ttlOpt) ≤ s.maxSizeBytes
      ∧ (∀ j, j < n →
          s.maxSizeBytes < totalIndexedSize (removeEntries s2 (sorted.take j)))
      ∧ List.Sorted laLE sorted
      ∧ List.Perm sorted s2.metadata := by
  have hnd1 : ((writePhase s now key v ttlOpt).metadata.map Prod.fst).Nodup := by
    show ((aupdate s.metadata key _).map Prod.fst).Nodup
    exact aupdate_keys_nodup key _ hnd
  obtain ⟨d', hmeta, -⟩ := cleanupExpired_spec (writePhase s now key v ttlOpt) now hnd1
  have hmeta2 : (cleanupExpired (writePhase s now key v ttlOpt) now).metadata
      = (writePhase s now key v ttlOpt).metadata.filter (fun p => !expiredMeta now p.2) := by
    rw [hmeta]
  have hnd2 : ((cleanupExpired (writePhase s now key v ttlOpt) now).metadata.map
      Prod.fst).Nodup := by
    rw [hmeta2]
    exact hnd1.sublist ((List.filter_sublist _).map _)
  obtain ⟨n, heq, hle, hmin⟩ :=
    enforceSizeLimit_spec (cleanupExpired (writePhase s now key v ttlOpt) now) hnd2
  have hmx : (cleanupExpired (writePhase s now key v ttlOpt) now).maxSizeBytes
      = s.maxSizeBytes := by
    rw [hmeta]
    rfl
  refine ⟨n, hmeta2, heq, ?_, ?_,
    List.sorted_insertionSort laLE _, List.perm_insertionSort laLE _⟩
  · rw [← hmx]
    exact hle
  · intro j hj
    rw [← hmx]
    exact hmin j hj

/-- Witness for C1: caching an oversized object into a 10-byte cache; the
size sweep brings the total back within budget. -/
theorem set_eviction_pass_witness :
    totalIndexedSize (cacheSet (emptyCache 10 86400) 0 "k" (.obj 100) (some 50)) ≤ 10 := by
  obtain ⟨n, -, -, h3, -⟩ :=
    set_eviction_pass (emptyCache 10 86400) 0 "k" (.obj 100) (some 50) (by decide)
  exact h3

theorem lookup_unique_mem {α β : Type} [DecidableEq α] {l : List (α × β)} {k : α} {b b' : β}
    (hnd : (l.map Prod.fst).Nodup) (hmem : (k, b) ∈ l) (hl : alookup l k = some b') :
    b = b' := by
  have h2 := alookup_of_mem_nodup hnd hmem
  rw [h2] at hl
  exact Option.some.inj hl

/-- A `get` on a state whose index entry for `key` carries the metadata
written by `set` for `v`, with the matching serialized file on disk and the
entry unexpired, is a hit returning `v`. -/
theorem cacheGet_hit (s' : CacheState) (now2 : Int) (key : String) (v : Value)
    (M : MetaEntry)
    (hM : alookup s'.metadata key = some M)
    (hdt : M.data_type = v.autoType)
    (hck : M.checksum = FileBytes.ser v.autoType v)
    (hfile : alookup s'.disk (cachePath key v.autoType) = some (FileBytes.ser v.autoType v))
    (hexp : expiredMeta now2 M = false) :
    (cacheGet s' now2 key).1 = some v := by
  have hex : isExpired s' now2 key = false := by
    rw [isExpired_of_lookup hM, hexp]
  have hvi : verifyIntegrity s' key (cachePath key v.autoType) = true := by
    unfold verifyIntegrity
    rw [hM, hfile]
    simp [fileHash, hck]
  simp [cacheGet, hex, hM, hdt, hfile, hvi, deserialize_autoType v]

/-- Whatever happens to the entry after a `set` of `v`, a later `get` of
the key can only ever return `v` (or a miss): no older payload remains
retrievable. -/
theorem cacheGet_value_unique (s' : CacheState) (now2 : Int) (key : String) (v : Value)
    (M : MetaEntry)
    (hM : alookup s'.metadata key = some M)
    (hdt : M.data_type = v.autoType)
    (hck : M.checksum = FileBytes.ser v.autoType v)
    (hfile : alookup s'.disk (cachePath key v.autoType) = some (FileBytes.ser v.autoType v)) :
    ∀ x : Value, (cacheGet s' now2 key).1 = some x → x = v := by
  intro x hx
  rcases hexp : expiredMeta now2 M with _ | _
  · rw [cacheGet_hit s' now2 key v M hM hdt hck hfile hexp] at hx
    exact (Option.some.inj hx).symm
  · have hex : isExpired s' now2 key = true := by
      rw [isExpired_of_lookup hM, hexp]
    simp [cacheGet, hex] at hx

/-- C7 counterexample: a second `set` for an existing key whose new value
is larger than the whole byte budget: the eviction pass run by `set`
removes the just-written entry, so afterwards the index does *not* map the
key to the new metadata — it maps it to nothing. -/
theorem set_replace_cex :
    (alookup smallEntryState.metadata "k").isSome = true
    ∧ alookup (cacheSet smallEntryState 1 "k" (.obj 100) (some 100)).metadata "k"
        = none := by
  exact ⟨by decide, by decide⟩

/-- C7 (amended): the cache holds at most one live entry per key, and a
`set` for a key that already has an entry fully replaces the prior payload
and metadata: after the second `set` the index maps the key either to
exactly the new metadata or — when the eviction pass removed the new entry
— to nothing, never to the old metadata; and the only payload a `get` of
the key can ever return is the new value, including when the new `set`
uses a different data type than the old entry. -/
theorem set_replaces_entry (s : CacheState) (now now2 : Int) (key : String) (v : Value)
    (ttlOpt : Option Int) (oldM : MetaEntry)
    (hnd : (s.metadata.map Prod.fst).Nodup)
    (_hold : alookup s.metadata key = some oldM) :
    ((cacheSet s now key v ttlOpt).metadata.map Prod.fst).Nodup
    ∧ ((cacheSet s now key v ttlOpt).metadata.map Prod.fst).count key ≤ 1
    ∧ (alookup (cacheSet s now key v ttlOpt).metadata key
          = some (newMeta now (ttlOpt.getD s.defaultTtl) v)
        ∨ alookup (cacheSet s now key v ttlOpt).metadata key = none)
    ∧ ∀ x : Value, (cacheGet (cacheSet s now key v ttlOpt) now2 key).1 = some x → x = v := by
  have hMdt : (newMeta now (ttlOpt.getD s.defaultTtl) v).data_type = v.autoType := rfl
  have hMck : (newMeta now (ttlOpt.getD s.defaultTtl) v).checksum
      = FileBytes.ser v.autoType v := rfl
  have hwpm : (writePhase s now key v ttlOpt).metadata
      = aupdate s.metadata key (newMeta now (ttlOpt.getD s.defaultTtl) v) := rfl
  have hwpd : (writePhase s now key v ttlOpt).disk
      = aupdate s.disk (cachePath key v.autoType) (FileBytes.ser v.autoType v) := rfl
  have hnd1 : ((writePhase s now key v ttlOpt).metadata.map Prod.fst).Nodup := by
    rw [hwpm]
    exact aupdate_keys_nodup key _ hnd
  have hwlook : alookup (writePhase s now key v ttlOpt).metadata key
      = some (newMeta now (ttlOpt.getD s.defaultTtl) v) := by
    rw [hwpm]
    exact alookup_aupdate_self _ _ _
  have hwfile : alookup (writePhase s now key v ttlOpt).disk (cachePath key v.autoType)
      = some (FileBytes.ser v.autoType v) := by
    rw [hwpd]
    exact alookup_aupdate_self _ _ _
  obtain ⟨d', hs2, hdiskpres⟩ :=
    cleanupExpired_spec (writePhase s now key v ttlOpt) now hnd1
  have hs2m : (cleanupExpired (writePhase s now key v ttlOpt) now).metadata
      = (writePhase s now key v ttlOpt).metadata.filter
          (fun p => !expiredMeta now p.2) := by
    rw [hs2]
  have hs2d : (cleanupExpired (writePhase s now key v ttlOpt) now).disk = d' := by
    rw [hs2]
  have hnd2 : ((cleanupExpired (writePhase s now key v ttlOpt) now).metadata.map
      Prod.fst).Nodup := by
    rw [hs2m]
    exact hnd1.sublist ((List.filter_sublist _).map _)
  have hs2look : alookup (cleanupExpired (writePhase s now key v ttlOpt) now).metadata key
      = if !expiredMeta now (newMeta now (ttlOpt.getD s.defaultTtl) v)
        then some (newMeta now (ttlOpt.getD s.defaultTtl) v) else none := by
    rw [hs2m, alookup_filter hnd1, hwlook]
    rfl
  obtain ⟨n, heq, -, -⟩ :=
    enforceSizeLimit_spec (cleanupExpired (writePhase s now key v ttlOpt) now) hnd2
  have hset : cacheSet s now key v ttlOpt
      = removeEntries (cleanupExpired (writePhase s now key v ttlOpt) now)
          ((List.insertionSort laLE
            (cleanupExpired (writePhase s now key v ttlOpt) now).metadata).take n) := heq
  have hndf : ((cacheSet s now key v ttlOpt).metadata.map Prod.fst).Nodup := by
    rw [hset]
    exact removeEntries_keys_nodup _ hnd2
  have hflook : alookup (cacheSet s now key v ttlOpt).metadata key
      = (alookup (cleanupExpired (writePhase s now key v ttlOpt) now).metadata key).bind
          (fun m => if decide (key ∉ ((List.insertionSort laLE
              (cleanupExpired (writePhase s now key v ttlOpt) now).metadata).take n).map
                Prod.fst) = true
            then some m else none) := by
    rw [hset, removeEntries_metadata_filter _ _ hnd2, alookup_filter hnd2]
  refine ⟨hndf, List.nodup_iff_count_le_one.mp hndf key, ?_, ?_⟩
  · rw [hflook, hs2look]
    rcases expiredMeta now (newMeta now (ttlOpt.getD s.defaultTtl) v) with _ | _
    · by_cases hkr : key ∈ List.take n (List.map Prod.fst (List.insertionSort laLE
          (cleanupExpired (writePhase s now key v ttlOpt) now).metadata)) <;>
        simp [hkr, List.map_take]
    · simp
  · intro x hx
    rcases hexpM : expiredMeta now (newMeta now (ttlOpt.getD s.defaultTtl) v) with _ | _
    · by_cases hkr : key ∈ List.take n (List.map Prod.fst (List.insertionSort laLE
          (cleanupExpired (writePhase s now key v ttlOpt) now).metadata))
      · -- the new entry was evicted by the size sweep: get is a miss
        have hnone : alookup (cacheSet s now key v ttlOpt).metadata key = none := by
          rw [hflook, hs2look, hexpM]
          simp [hkr, List.map_take]
        have hex : isExpired (cacheSet s now key v ttlOpt) now2 key = true := by
          simp [isExpired, hnone]
        simp [cacheGet, hex] at hx
      · -- the new entry survived: the only retrievable payload is v
        have hsome : alookup (cacheSet s now key v ttlOpt).metadata key
            = some (newMeta now (ttlOpt.getD s.defaultTtl) v) := by
          rw [hflook, hs2look, hexpM]
          simp [hkr, List.map_take]
        have hkey_not_exp : key ∉ ((writePhase s now key v ttlOpt).metadata.filter
            (fun p => expiredMeta now p.2)).map Prod.fst := by
          intro hmem
          obtain ⟨p, hp, hpk⟩ := List.mem_map.mp hmem
          have hpfil := List.mem_filter.mp hp
          have hpeq : p = (key, p.2) := by
            rw [← hpk]
          have hval : p.2 = newMeta now (ttlOpt.getD s.defaultTtl) v :=
            lookup_unique_mem hnd1 (hpeq ▸ hpfil.1) hwlook
          rw [hval] at hpfil
          rw [hexpM] at hpfil
          exact absurd hpfil.2 (by simp)
        have hfile : alookup (cacheSet s now key v ttlOpt).disk (cachePath key v.autoType)
            = some (FileBytes.ser v.autoType v) := by
          rw [hset, removeEntries_disk_preserved _ _ _ (by simpa [List.map_take] using hkr),
            hs2d, hdiskpres _ hkey_not_exp, hwfile]
        exact cacheGet_value_unique (cacheSet s now key v ttlOpt) now2 key v
          (newMeta now (ttlOpt.getD s.defaultTtl) v) hsome hMdt hMck hfile x hx
    · -- the new entry itself was already expired and swept out: get is a miss
      have hnone : alookup (cacheSet s now key v ttlOpt).metadata key = none := by
        rw [hflook, hs2look, hexpM]
        rfl
      have hex : isExpired (cacheSet s now key v ttlOpt) now2 key = true := by
        simp [isExpired, hnone]
      simp [cacheGet, hex] at hx

/-- Witness for C7: replacing a pickled entry by a JSON entry (different
data type) in a roomy cache; the index maps the key to the new metadata or
nothing (never the old), and any subsequent hit returns the new value. -/
theorem set_replaces_entry_witness :
    ((cacheSet (cacheSet (emptyCache 1000 86400) 0 "k" (.obj 1) (some 100))
        1 "k" (.jsn 2) (some 100)).metadata.map Prod.fst).count "k" ≤ 1
    ∧ ∀ x : Value,
        (cacheGet (cacheSet (cacheSet (emptyCache 1000 86400) 0 "k" (.obj 1) (some 100))
          1 "k" (.jsn 2) (some 100)) 1 "k").1 = some x → x = .jsn 2 := by
  obtain ⟨-, h2, -, h4⟩ := set_replaces_entry
    (cacheSet (emptyCache 1000 86400) 0 "k" (.obj 1) (some 100)) 1 1 "k" (.jsn 2)
    (some 100) (newMeta 0 100 (.obj 1)) (by decide) (by decide)
  exact ⟨h2, h4⟩

/-- C5 counterexample: with `ttl = 50 > 0`, caching a value whose
serialized size (101 bytes) exceeds the 10-byte budget makes the size
sweep run by `set` evict the just-written entry, so the immediate `get`
is a miss instead of returning the value. -/
theorem set_get_roundtrip_cex :
    (0 : Int) < 50
    ∧ (cacheGet (cacheSet (emptyCache 10 86400) 0 "k" (.obj 100) (some 50)) 0 "k").1
        = none := by
  exact ⟨by decide, by decide⟩

/-- C5 (amended): for every key, value and `ttl > 0`, provided the key is
fresh, the value's serialized size fits within the byte budget, and no
existing entry has a `last_access` later than the set time (always true of
reachable states), `set(k, v, ttl)` followed immediately by `get(k)` is a
hit returning `v`, equal to the original after the round-trip through the
auto-selected serialization format (pickle, CSV or JSON by value type). -/
theorem set_get_roundtrip (s : CacheState) (now : Int) (key : String) (v : Value)
    (ttl : Int)
    (hnd : (s.metadata.map Prod.fst).Nodup)
    (hfresh : alookup s.metadata key = none)
    (httl : 0 < ttl)
    (hsize : v.serSize ≤ s.maxSizeBytes)
    (hla : ∀ p ∈ s.metadata, p.2.last_access ≤ now) :
    (cacheGet (cacheSet s now key v (some ttl)) now key).1 = some v := by
  have hMdt : (newMeta now ttl v).data_type = v.autoType := rfl
  have hMck : (newMeta now ttl v).checksum = FileBytes.ser v.autoType v := rfl
  have hMla : (newMeta now ttl v).last_access = now := rfl
  have hMexp : expiredMeta now (newMeta now ttl v) = false := by
    simp only [expiredMeta, newMeta, decide_eq_false_iff_not, not_lt]
    omega
  have hkeys : key ∉ s.metadata.map Prod.fst := (alookup_none_iff _ _).mp hfresh
  -- write phase
  have hwpm : (writePhase s now key v (some ttl)).metadata
      = s.metadata ++ [(key, newMeta now ttl v)] := by
    show aupdate s.metadata key (newMeta now ((some ttl).getD s.defaultTtl) v)
        = s.metadata ++ [(key, newMeta now ttl v)]
    exact aupdate_of_not_mem hfresh _
  have hwfile : alookup (writePhase s now key v (some ttl)).disk (cachePath key v.autoType)
      = some (FileBytes.ser v.autoType v) := alookup_aupdate_self _ _ _
  have hnd1 : ((writePhase s now key v (some ttl)).metadata.map Prod.fst).Nodup := by
    rw [hwpm]
    simp only [List.map_append, List.map_cons, List.map_nil, List.nodup_append,
      List.nodup_cons, List.nodup_nil]
    exact ⟨hnd, ⟨by simp, by simp⟩, by simpa using hkeys⟩
  -- expiry sweep keeps the new entry and all unexpired old entries
  obtain ⟨d', hs2, hdiskpres⟩ :=
    cleanupExpired_spec (writePhase s now key v (some ttl)) now hnd1
  have hs2m : (cleanupExpired (writePhase s now key v (some ttl)) now).metadata
      = s.metadata.filter (fun p => !expiredMeta now p.2) ++ [(key, newMeta now ttl v)] := by
    rw [hs2]
    show (writePhase s now key v (some ttl)).metadata.filter (fun p => !expiredMeta now p.2)
        = _
    rw [hwpm, List.filter_append]
    simp [List.filter_cons, hMexp]
  have hs2d : (cleanupExpired (writePhase s now key v (some ttl)) now).disk = d' := by
    rw [hs2]
  have hs2mx : (cleanupExpired (writePhase s now key v (some ttl)) now).maxSizeBytes
      = s.maxSizeBytes := by
    rw [hs2]
    rfl
  have hkeys_l' : key ∉ (s.metadata.filter (fun p => !expiredMeta now p.2)).map Prod.fst := by
    intro hmem
    exact hkeys (((List.filter_sublist _).map Prod.fst).mem hmem)
  have hnd2 : ((cleanupExpired (writePhase s now key v (some ttl)) now).metadata.map
      Prod.fst).Nodup := by
    rw [hs2]
    exact hnd1.sublist ((List.filter_sublist _).map _)
  have hkey_not_exp : key ∉ ((writePhase s now key v (some ttl)).metadata.filter
      (fun p => expiredMeta now p.2)).map Prod.fst := by
    intro hmem
    obtain ⟨p, hp, hpk⟩ := List.mem_map.mp hmem
    have hpfil := List.mem_filter.mp hp
    rw [hwpm] at hpfil
    rcases List.mem_append.mp hpfil.1 with hmem' | hmem'
    · exact hkeys (hpk ▸ List.mem_map_of_mem Prod.fst hmem')
    · have : p = (key, newMeta now ttl v) := by simpa using hmem'
      rw [this] at hpfil
      rw [hMexp] at hpfil
      exact absurd hpfil.2 (by simp)
  have hs2file : alookup (cleanupExpired (writePhase s now key v (some ttl)) now).disk
      (cachePath key v.autoType) = some (FileBytes.ser v.autoType v) := by
    rw [hs2d, hdiskpres _ hkey_not_exp, hwfile]
  -- the stable LRU sort leaves the freshly written entry last
  have hsorted : List.insertionSort laLE
      (cleanupExpired (writePhase s now key v (some ttl)) now).metadata
      = List.insertionSort laLE (s.metadata.filter (fun p => !expiredMeta now p.2))
        ++ [(key, newMeta now ttl v)] := by
    rw [hs2m]
    apply insertionSort_append_last
    intro x hx
    show x.2.last_access ≤ (newMeta now ttl v).last_access
    rw [hMla]
    exact hla x (List.mem_of_mem_filter hx)
  obtain ⟨n, heq, hle, hmin⟩ :=
    enforceSizeLimit_spec (cleanupExpired (writePhase s now key v (some ttl)) now) hnd2
  have hset : cacheSet s now key v (some ttl)
      = removeEntries (cleanupExpired (writePhase s now key v (some ttl)) now)
          ((List.insertionSort laLE
            (cleanupExpired (writePhase s now key v (some ttl)) now).metadata).take n) :=
    heq
  -- the size sweep never reaches the freshly written entry
  have hLlen : (List.insertionSort laLE
      (s.metadata.filter (fun p => !expiredMeta now p.2))).length
      = (s.metadata.filter (fun p => !expiredMeta now p.2)).length :=
    List.length_insertionSort laLE _
  have hkeys_L : key ∉ (List.insertionSort laLE
      (s.metadata.filter (fun p => !expiredMeta now p.2))).map Prod.fst := by
    intro hmem
    exact hkeys_l' (((List.perm_insertionSort laLE _).map Prod.fst).mem_iff.mp hmem)
  have hn_le : n ≤ (List.insertionSort laLE
      (s.metadata.filter (fun p => !expiredMeta now p.2))).length := by
    by_contra hgt
    push_neg at hgt
    have hmin' := hmin _ hgt
    have htake : (List.insertionSort laLE
        (cleanupExpired (writePhase s now key v (some ttl)) now).metadata).take
          (List.insertionSort laLE
            (s.metadata.filter (fun p => !expiredMeta now p.2))).length
        = List.insertionSort laLE (s.metadata.filter (fun p => !expiredMeta now p.2)) := by
      rw [hsorted]
      exact List.take_left _ _
    rw [htake] at hmin'
    -- after removing every old entry, only the fresh entry remains
    have hremm : (removeEntries (cleanupExpired (writePhase s now key v (some ttl)) now)
        (List.insertionSort laLE (s.metadata.filter (fun p => !expiredMeta now p.2)))).metadata
        = [(key, newMeta now ttl v)] := by
      rw [removeEntries_metadata_filter _ _ hnd2, hs2m, List.filter_append]
      have h1 : (s.metadata.filter (fun p => !expiredMeta now p.2)).filter
          (fun p => decide (p.1 ∉ (List.insertionSort laLE
            (s.metadata.filter (fun p => !expiredMeta now p.2))).map Prod.fst)) = [] := by
        apply List.filter_eq_nil_iff.mpr
        intro p hp
        simp only [decide_eq_true_eq, not_not, Decidable.not_not]
        exact ((List.perm_insertionSort laLE _).map Prod.fst).mem_iff.mpr
          (List.mem_map_of_mem Prod.fst hp)
      have h2 : ([(key, newMeta now ttl v)] : List (String × MetaEntry)).filter
          (fun p => decide (p.1 ∉ (List.insertionSort laLE
            (s.metadata.filter (fun p => !expiredMeta now p.2))).map Prod.fst))
          = [(key, newMeta now ttl v)] := by
        simp [List.filter_cons, hkeys_L]
      rw [h1, h2]
      rfl
    have hremfile : alookup (removeEntries
        (cleanupExpired (writePhase s now key v (some ttl)) now)
        (List.insertionSort laLE
          (s.metadata.filter (fun p => !expiredMeta now p.2)))).disk
        (cachePath key v.autoType) = some (FileBytes.ser v.autoType v) := by
      rw [removeEntries_disk_preserved _ _ _ hkeys_L, hs2file]
    have hremtot : totalIndexedSize (removeEntries
        (cleanupExpired (writePhase s now key v (some ttl)) now)
        (List.insertionSort laLE (s.metadata.filter (fun p => !expiredMeta now p.2))))
        = v.serSize := by
      unfold totalIndexedSize
      rw [hremm]
      simp [entryDiskSize, hMdt, hremfile, FileBytes.size]
    rw [hremtot, hs2mx] at hmin'
    omega
  have htaken : (List.insertionSort laLE
      (cleanupExpired (writePhase s now key v (some ttl)) now).metadata).take n
      = (List.insertionSort laLE
          (s.metadata.filter (fun p => !expiredMeta now p.2))).take n := by
    rw [hsorted]
    exact List.take_append_of_le_length hn_le
  have hkeys_rem : key ∉ ((List.insertionSort laLE
      (cleanupExpired (writePhase s now key v (some ttl)) now).metadata).take n).map
        Prod.fst := by
    rw [htaken]
    intro hmem
    exact hkeys_L ((List.take_sublist _ _).map Prod.fst |>.mem hmem)
  -- the surviving state still holds the fresh entry and its file
  have hflook : alookup (cacheSet s now key v (some ttl)).metadata key
      = some (newMeta now ttl v) := by
    rw [hset, removeEntries_metadata_filter _ _ hnd2, alookup_filter hnd2]
    have hs2look : alookup
        (cleanupExpired (writePhase s now key v (some ttl)) now).metadata key
        = some (newMeta now ttl v) := by
      rw [hs2m, alookup_append_not_mem _ hkeys_l']
      simp [alookup]
    rw [hs2look]
    have hkeys_rem2 : key ∉ List.take n (List.map Prod.fst (List.insertionSort laLE
        (cleanupExpired (writePhase s now key v (some ttl)) now).metadata)) := by
      simpa [List.map_take] using hkeys_rem
    simp [hkeys_rem2, List.map_take]
  have hffile : alookup (cacheSet s now key v (some ttl)).disk (cachePath key v.autoType)
      = some (FileBytes.ser v.autoType v) := by
    rw [hset, removeEntries_disk_preserved _ _ _ hkeys_rem, hs2file]
  exact cacheGet_hit _ now key v (newMeta now ttl v) hflook hMdt hMck hffile hMexp

/-- Witness for C5: a DataFrame cached into a roomy fresh cache and read
back immediately round-trips through the CSV path. -/
theorem set_get_roundtrip_witness :
    (cacheGet (cacheSet (emptyCache 1000 86400) 5 "kk" (.df [(0, 1)]) (some 50)) 5 "kk").1
      = some (.df [(0, 1)]) :=
  set_get_roundtrip (emptyCache 1000 86400) 5 "kk" (.df [(0, 1)]) 50
    (by decide) rfl (by decide) (by decide) (by intro p hp; cases hp)

end KnmiEpw
